import Mathlib

/-!
Verification of the nested album/folder data model with recursive CRUD and
backend synchronization found in the photo-gallery component of this
repository (the drag-and-drop gallery app in the unnamed source part).

The embedding is shallow: the JavaScript tree-rewriting functions are
translated into pure Lean functions on an inductive tree type; the
environment (HTTP responses, `Math.random()` identifier generation, file
metadata, object URLs, formatted size strings) is passed in explicitly as
parameters; React reducer state is an explicit record.  Where a JavaScript
function mutates objects in place through aliased references, the value of
the affected data after the call is modelled by an explicit function.
-/

/-- An image entry: `{ id, name, url, size }` as built by `handleFileUpload`
and `processEntry`.  `url` holds the object URL produced by the browser and
`size` the pre-formatted human-readable size string; both are opaque here. -/
structure Image where
  id : String
  name : String
  url : String
  size : String
deriving DecidableEq, Repr

/-- An album node: `{ id, name, images, subAlbums }`. -/
inductive Album : Type where
  | mk (id : String) (name : String) (images : List Image) (subAlbums : List Album) : Album
deriving Repr

def Album.id : Album → String
  | .mk i _ _ _ => i

def Album.name : Album → String
  | .mk _ n _ _ => n

def Album.images : Album → List Image
  | .mk _ _ imgs _ => imgs

def Album.subAlbums : Album → List Album
  | .mk _ _ _ subs => subs

/-- In nested ("show all") mode each photo carries a synthesized breadcrumb
`folderName`; in plain mode the rendered photo objects have no such field,
modelled by `none`. -/
structure TaggedImage where
  img : Image
  folderName : Option String
deriving DecidableEq, Repr

-- NAVIGATION HELPERS --

/-- `getCurrentDirectory`: walks `currentPath` over the tree; at each step,
if `current.find(a => a.id === id)` succeeds the walk descends into that
folder's `subAlbums`, otherwise `current` is left unchanged and the walk
continues with the next path segment. -/
def getCurrentDirectory : List Album → List String → List Album
  | current, [] => current
  | current, id :: rest =>
    match current.find? (fun a => a.id == id) with
    | some folder => getCurrentDirectory folder.subAlbums rest
    | none => getCurrentDirectory current rest

/-- `getCurrentAlbum`: returns `null` for the empty path; otherwise runs the
loop `current = list.find(...); list = current?.subAlbums || []` over every
path segment and returns the `current` of the last iteration. -/
def getCurrentAlbum (albums : List Album) : List String → Option Album
  | [] => none
  | id :: rest =>
    match rest with
    | [] => albums.find? (fun a => a.id == id)
    | _ :: _ =>
      getCurrentAlbum (((albums.find? (fun a => a.id == id)).map Album.subAlbums).getD []) rest

mutual
/-- `getAllPhotosRecursive`: pre-order flatten of all images below an album,
each tagged with the breadcrumb `pathName / album.name` (just `album.name`
when the incoming `pathName` is empty, matching JS string truthiness). -/
def getAllPhotosRecursive : Album → String → List TaggedImage
  | .mk _ name imgs subs, pathName =>
    let currentName := if pathName = "" then name else pathName ++ " / " ++ name
    imgs.map (fun im => ⟨im, some currentName⟩) ++ getAllPhotosList subs currentName
def getAllPhotosList : List Album → String → List TaggedImage
  | [], _ => []
  | a :: rest, p => getAllPhotosRecursive a p ++ getAllPhotosList rest p
end

/-- `activePhotos`: `[]` when `getCurrentAlbum()` is null, otherwise either
the flattened nested listing or the album's own images. -/
def activePhotos (albums : List Album) (path : List String) (showAllNested : Bool) :
    List TaggedImage :=
  match getCurrentAlbum albums path with
  | none => []
  | some album =>
    if showAllNested then getAllPhotosRecursive album ""
    else album.images.map (fun im => ⟨im, none⟩)

-- TREE MUTATION ENGINE --

/-- Number of album nodes in the forest whose `id` equals `t`. -/
def countId (t : String) : List Album → Nat
  | [] => 0
  | .mk i _ _ subs :: rest => (if i == t then 1 else 0) + countId t subs + countId t rest

/-- The shared shape of the two `updateRecursive` helpers (in `createAlbum`
and in `handleFileUpload`): `list.map` over the forest, applying `f` to every
node whose `id` matches the target (without descending into that node) and
recursing into `subAlbums` of every other node. -/
def updateAt (t : String) (f : Album → Album) : List Album → List Album
  | [] => []
  | .mk i n imgs subs :: rest =>
    (if i == t then f (.mk i n imgs subs)
     else .mk i n imgs (updateAt t f subs)) :: updateAt t f rest

/-- JS whitespace characters recognised by `String.prototype.trim`
(the ASCII ones; exotic Unicode space classes are not modelled). -/
def isWs (c : Char) : Bool :=
  c == ' ' || c == '\t' || c == '\n' || c == '\r' || c == '\x0b' || c == '\x0c'

/-- Models the guard `!newAlbumName.trim()` in `createAlbum`: true exactly
when the name is empty or consists only of whitespace. -/
def isBlank (s : String) : Bool := s.data.all isWs

/-- Result of a UI mutation handler: the resulting local tree plus whether
`persistChanges` (and hence a backend sync) was invoked. -/
structure OpResult where
  items : List Album
  didSync : Bool

/-- `createAlbum`: rejects a blank name before any mutation or sync;
otherwise appends `{ id: newId, name, images: [], subAlbums: [] }` at the
forest root when the path is empty, or into the `subAlbums` of every node
matching the path's last element, then calls `persistChanges`. -/
def createAlbum (newId name : String) (path : List String) (l : List Album) : OpResult :=
  if isBlank name then ⟨l, false⟩
  else
    let newAlbum := Album.mk newId name [] []
    match path.getLast? with
    | none => ⟨l ++ [newAlbum], true⟩
    | some t =>
      ⟨updateAt t (fun a => Album.mk a.id a.name a.images (a.subAlbums ++ [newAlbum])) l, true⟩

/-- The value of the new tree built by `deleteAlbum`'s `deleteRecursive`:
filter out nodes matching the id and rebuild the `subAlbums` of every kept
node (the subtree of a removed node is not descended into). -/
def deleteRecursive (i : String) : List Album → List Album
  | [] => []
  | .mk j n imgs subs :: rest =>
    if j == i then deleteRecursive i rest
    else .mk j n imgs (deleteRecursive i subs) :: deleteRecursive i rest

/-- The value of the CALLER's original `albums` array as observable after
`deleteAlbum` runs.  `deleteAlbum` calls `deleteRecursive([...albums])`: the
spread copies only the top-level array, and the filter callback executes
`item.subAlbums = deleteRecursive(item.subAlbums)` on each kept item — the
very objects the original tree still references — so every original
top-level node that does not itself match the id has its `subAlbums`
replaced by the recursively pruned list.  A matching top-level node is left
untouched because the callback returns `false` before the assignment. -/
def deleteAlbumInputAfter (i : String) (l : List Album) : List Album :=
  l.map fun a =>
    if a.id == i then a else Album.mk a.id a.name a.images (deleteRecursive i a.subAlbums)

/-- `handleFileUpload`: no-op when there are no files or the path is empty;
otherwise appends the freshly built image entries to the `images` of every
node matching the path's last element (via `updateRecursive`). -/
def handleFileUpload (path : List String) (newImages : List Image) (l : List Album) :
    List Album :=
  match path.getLast? with
  | none => l
  | some t =>
    if newImages.isEmpty then l
    else updateAt t (fun a => Album.mk a.id a.name (a.images ++ newImages) a.subAlbums) l

/-- Modelled from the spec: "Inserting k images into a folder increases that
folder's image count by exactly k and leaves every other folder's images
untouched" — the transformation that appends `new` to the images of every
node whose id is `t` and leaves everything else (names, ids, structure,
other image lists) unchanged. -/
def specInsertImages (t : String) (new : List Image) : List Album → List Album
  | [] => []
  | .mk i n imgs subs :: rest =>
    Album.mk i n (if i == t then imgs ++ new else imgs) (specInsertImages t new subs)
      :: specInsertImages t new rest

/-- `deleteImage`'s `deleteFromRecursive`: `list.map` producing for each node
a copy with `images` filtered by `img.id !== imageId` and `subAlbums`
rewritten recursively.  (Each node is copied with `{ ...item }` first, so
unlike `deleteAlbum` this does not mutate the input.) -/
def deleteFromRecursive (i : String) : List Album → List Album
  | [] => []
  | .mk j n imgs subs :: rest =>
    .mk j n (imgs.filter fun im => !(im.id == i)) (deleteFromRecursive i subs)
      :: deleteFromRecursive i rest

-- STATE MANAGEMENT AND SYNC CLIENT --

/-- `status` field of the reducer state. -/
inductive Status : Type where
  | idle | loading | succeeded | failed
deriving DecidableEq, Repr

/-- The `useReducer` state `{ items, status, error, syncing }`. -/
structure StoreState where
  items : List Album
  status : Status
  error : Option String
  syncing : Bool
deriving Repr

def initialState : StoreState := ⟨[], .idle, none, false⟩

/-- Reducer actions. -/
inductive StoreAction : Type where
  | fetchStart
  | fetchSuccess (payload : List Album)
  | fetchError (payload : String)
  | syncStart
  | syncEnd
  | setItems (payload : List Album)

/-- `albumReducer`, case for case. -/
def albumReducer (s : StoreState) : StoreAction → StoreState
  | .fetchStart => { s with status := .loading }
  | .fetchSuccess p => { s with status := .succeeded, items := p }
  | .fetchError p => { s with status := .failed, error := some p }
  | .syncStart => { s with syncing := true }
  | .syncEnd => { s with syncing := false }
  | .setItems p => { s with items := p }

/-- A record of the remote collection: `{ id, data }` where `data` (possibly
absent) holds the serialized tree. -/
structure RemoteRecord where
  id : String
  data : Option (List Album)

/-- The outcome the environment produces for one GET attempt:
404, a 2xx response with a parsed body, a non-2xx non-404 status (which
makes the code throw), or a transport failure (rejected fetch). -/
inductive FetchAttempt : Type where
  | notFound
  | ok (records : List RemoteRecord)
  | httpError (status : Nat)
  | networkError

/-- `fetchWithRetry`: 404 yields `null`; a 2xx response yields its body;
any other result throws, and the catch retries (after a backoff delay,
irrelevant here) while `retries > 0`, rethrowing once the budget is spent.
`resp n` is the environment's answer to the n-th attempt. -/
def fetchWithRetry (resp : Nat → FetchAttempt) (attempt : Nat) :
    Nat → Except Unit (Option (List RemoteRecord))
  | retries =>
    match resp attempt with
    | .notFound => .ok none
    | .ok records => .ok (some records)
    | .httpError _ =>
      if h : 0 < retries then fetchWithRetry resp (attempt + 1) (retries - 1)
      else .error ()
    | .networkError =>
      if h : 0 < retries then fetchWithRetry resp (attempt + 1) (retries - 1)
      else .error ()
termination_by retries => retries
decreasing_by all_goals omega

/-- The error message dispatched by `fetchAlbums` on exhausted retries. -/
def fetchErrorMessage : String :=
  "Failed to connect to backend storage. Please check your MockAPI endpoint."

/-- `fetchAlbums` (`load()`): FETCH_START, then `fetchWithRetry(API_BASE)`
with 3 retries; null or empty body hydrates an empty tree; otherwise the
record with id "1" supplies the tree (`remoteEntry?.data || []`); a throw
dispatches FETCH_ERROR. -/
def fetchAlbums (resp : Nat → FetchAttempt) (s : StoreState) : StoreState :=
  let s1 := albumReducer s .fetchStart
  match fetchWithRetry resp 0 3 with
  | .error _ => albumReducer s1 (.fetchError fetchErrorMessage)
  | .ok none => albumReducer s1 (.fetchSuccess [])
  | .ok (some data) =>
    if data.length == 0 then albumReducer s1 (.fetchSuccess [])
    else
      match data.find? (fun item => item.id == "1") with
      | some remoteEntry => albumReducer s1 (.fetchSuccess (remoteEntry.data.getD []))
      | none => albumReducer s1 (.fetchSuccess [])

def API_BASE : String := "https://694d4185ad0f8c8e6e203206.mockapi.io/albums"

/-- The environment's outcome for one PUT/POST: a 2xx response, a non-2xx
response, or a rejected fetch. -/
inductive FetchOutcome : Type where
  | ok | notOk | thrown
deriving DecidableEq, Repr

/-- One HTTP request issued by `syncToBackend`, with the parts of the JSON
body this model cares about. -/
structure Request where
  method : String
  url : String
  bodyId : Option String
  bodyData : List Album

/-- `syncToBackend` (`save(tree)`): SYNC_START; PUT `{ data }` to
`API_BASE/1`; if (and only if) that request completes with a non-ok status,
POST `{ id: "1", data }` to `API_BASE` (a rejected PUT jumps to the catch,
which only logs, so no POST happens); any POST failure is also only logged;
finally SYNC_END.  Returns the resulting state and the requests issued. -/
def syncToBackend (putR postR : FetchOutcome) (s : StoreState) (newAlbums : List Album) :
    StoreState × List Request :=
  let s1 := albumReducer s .syncStart
  let putReq : Request := ⟨"PUT", API_BASE ++ "/1", none, newAlbums⟩
  let reqs : List Request :=
    match putR with
    | .ok => [putReq]
    | .notOk => [putReq, ⟨"POST", API_BASE, some "1", newAlbums⟩]
    | .thrown => [putReq]
  let _ := postR  -- the POST response is never inspected
  (albumReducer s1 .syncEnd, reqs)

-- FOLDER DRAG-AND-DROP INGESTION --

/-- A file-system entry handed over by the drag-and-drop API: a file (with
its name, MIME type, and the environment-produced object URL and formatted
size string for the Image it would become) or a directory of entries. -/
inductive Entry : Type where
  | file (name fType url size : String)
  | dir (name : String) (children : List Entry)

/-- Replace the first element satisfying `p` (the element `find` returned
and `processEntry` mutated in place) by `x`. -/
def replaceFirst (p : Album → Bool) (x : Album) : List Album → List Album
  | [] => []
  | a :: rest => if p a then x :: rest else a :: replaceFirst p x rest

mutual
/-- `processEntry(entry, targetList)`, value-level with the id supply made
explicit: `sup k` is the `Math.random()` string drawn next.  A file of image
type appends an Image with a fresh id; a directory reuses the first
same-named sub-album or appends a fresh one, then processes its children
into it sequentially.  Returns the updated target album and the next unused
supply index. -/
def processEntry (sup : Nat → String) : Entry → Album → Nat → Album × Nat
  | .file nm fType url size, .mk i n imgs subs, k =>
    if "image/".data.isPrefixOf fType.data then
      (.mk i n (imgs ++ [⟨sup k, nm, url, size⟩]) subs, k + 1)
    else (.mk i n imgs subs, k)
  | .dir nm children, .mk i n imgs subs, k =>
    match subs.find? (fun f => f.name == nm) with
    | some folder =>
      let r := processEntries sup children folder k
      (.mk i n imgs (replaceFirst (fun f => f.name == nm) r.1 subs), r.2)
    | none =>
      let r := processEntries sup children (Album.mk (sup k) nm [] []) (k + 1)
      (.mk i n imgs (subs ++ [r.1]), r.2)
def processEntries (sup : Nat → String) : List Entry → Album → Nat → Album × Nat
  | [], a, k => (a, k)
  | e :: rest, a, k =>
    let r := processEntry sup e a k
    processEntries sup rest r.1 r.2
end

/-- The album at an address (a non-empty list of positions: an index into
the top-level list, then an index into each successive `subAlbums`). -/
def getAt : List Album → List Nat → Option Album
  | _, [] => none
  | l, j :: rest =>
    match l[j]? with
    | none => none
    | some a =>
      match rest with
      | [] => some a
      | _ :: _ => getAt a.subAlbums rest

def modifyIdx (f : Album → Album) : List Album → Nat → List Album
  | [], _ => []
  | a :: rest, 0 => f a :: rest
  | a :: rest, j + 1 => a :: modifyIdx f rest j

/-- Apply `f` to the album at an address (identity on an empty address). -/
def modifyAt (f : Album → Album) : List Album → List Nat → List Album
  | l, [] => l
  | l, j :: rest =>
    match rest with
    | [] => modifyIdx f l j
    | _ :: _ =>
      modifyIdx (fun a => Album.mk a.id a.name a.images (modifyAt f a.subAlbums rest)) l j

/-- The loop in `handleDrop` that picks the drop target: `found` is
re-assigned at every segment (`found = current.find(...)`), and only a
successful find advances `current`; the address of the last iteration's
`found` (or `none` if the last find failed) decides the target.  `addr`
accumulates the index path of `current`; `lastF` is the address of the
current `found`. -/
def dropWalk : List Album → List Nat → Option (List Nat) → List String → Option (List Nat)
  | _, _, lastF, [] => lastF
  | cur, addr, _, id :: rest =>
    match cur.findIdx? (fun a => a.id == id) with
    | some j =>
      dropWalk ((cur[j]?.map Album.subAlbums).getD []) (addr ++ [j]) (some (addr ++ [j])) rest
    | none => dropWalk cur addr none rest

/-- `handleDrop`, value-level.  The tree is deep-copied first
(`JSON.parse(JSON.stringify(albums))`), so the input is not mutated; the
wrapper `{ subAlbums: nextAlbums, images: [] }` receives the entries when
the path is empty or the final find failed — images pushed onto the wrapper
are discarded, only its `subAlbums` (aliasing `nextAlbums`) survive.
Otherwise the found node, at the address `dropWalk` computed, is processed
in place.  Returns the tree passed to `persistChanges` plus the next unused
supply index. -/
def handleDropAux (sup : Nat → String) (items : List Entry) (l : List Album) (k : Nat) :
    Option (List Nat) → List Album × Nat
  | none =>
    ((processEntries sup items (Album.mk "" "" [] l) k).1.subAlbums,
     (processEntries sup items (Album.mk "" "" [] l) k).2)
  | some addr =>
    match getAt l addr with
    | none => (l, k)
    | some a =>
      (modifyAt (fun _ => (processEntries sup items a k).1) l addr,
       (processEntries sup items a k).2)

def handleDrop (sup : Nat → String) (path : List String) (items : List Entry)
    (l : List Album) (k : Nat) : List Album × Nat :=
  handleDropAux sup items l k (if path.isEmpty then none else dropWalk l [] none path)

-- IDENTIFIER SUPPLY AND REACHABILITY --

/-- Metadata of one selected file in `handleFileUpload`: original name plus
the environment-produced object URL and formatted size string. -/
structure FileMeta where
  name : String
  url : String
  size : String

/-- The image entries `handleFileUpload` builds from the selected files,
drawing one fresh id per file starting at supply index `k`. -/
def mkImages (sup : Nat → String) (k : Nat) : List FileMeta → List Image
  | [] => []
  | m :: rest => ⟨sup k, m.name, m.url, m.size⟩ :: mkImages sup (k + 1) rest

/-- The supply values at indices `k, k+1, ..., k+m-1`. -/
def supRange (sup : Nat → String) (k : Nat) : Nat → List String
  | 0 => []
  | m + 1 => sup k :: supRange sup (k + 1) m

/-- Supply indices consumed by `createAlbum` (none when the blank-name guard
rejects before generating an id). -/
def createConsumes (name : String) : Nat := if isBlank name then 0 else 1

/-- Supply indices consumed by `handleFileUpload` (none when the guard
`!files.length || currentPath.length === 0` returns early). -/
def uploadConsumes (path : List String) (metas : List FileMeta) : Nat :=
  match path.getLast? with
  | none => 0
  | some _ => if metas.isEmpty then 0 else metas.length

/-- Trees (with the next unused supply index) reachable from the empty
forest by the mutation handlers, with all client-generated identifiers
drawn from the supply `sup` — the explicit model of `Math.random()`
id generation. -/
inductive Reach (sup : Nat → String) : List Album → Nat → Prop where
  | init : Reach sup [] 0
  | createStep (name : String) (path : List String) {l : List Album} {k : Nat} :
      Reach sup l k →
      Reach sup (createAlbum (sup k) name path l).items (k + createConsumes name)
  | uploadStep (path : List String) (metas : List FileMeta) {l : List Album} {k : Nat} :
      Reach sup l k →
      Reach sup (handleFileUpload path (mkImages sup k metas) l) (k + uploadConsumes path metas)
  | dropStep (path : List String) (items : List Entry) {l : List Album} {k : Nat} :
      Reach sup l k →
      Reach sup (handleDrop sup path items l k).1 (handleDrop sup path items l k).2
  | deleteAlbumStep (i : String) {l : List Album} {k : Nat} :
      Reach sup l k → Reach sup (deleteRecursive i l) k
  | deleteImageStep (i : String) {l : List Album} {k : Nat} :
      Reach sup l k → Reach sup (deleteFromRecursive i l) k

mutual
/-- All identifiers (the album's own id, its image ids, and recursively
those of its sub-albums) below one album. -/
def allIdsA : Album → List String
  | .mk i _ imgs subs => i :: (imgs.map Image.id ++ allIds subs)
/-- All album and image identifiers of a forest. -/
def allIds : List Album → List String
  | [] => []
  | a :: rest => allIdsA a ++ allIds rest
end

/-- Occurrence count of a string in a list (kept definitionally simple so
that every lemma below reduces to `omega` arithmetic). -/
def cnt (x : String) : List String → Nat
  | [] => 0
  | y :: rest => (if y = x then 1 else 0) + cnt x rest

-- SPEC-SIDE DEFINITIONS USED BY CORRECTED CLAIMS --

/-- Modelled from the amended claim for `currentAlbum`: resolve the path
segment by segment, requiring every segment (including the last) to resolve;
any failure, or an empty path, yields no album. -/
def resolveFull (albums : List Album) : List String → Option Album
  | [] => none
  | id :: rest =>
    match albums.find? (fun a => a.id == id) with
    | none => none
    | some a =>
      match rest with
      | [] => some a
      | _ :: _ => resolveFull a.subAlbums rest

/-- Modelled from the spec sentence for claim C2: "returning the deepest
successfully-resolved album" — the walk that remembers the last successful
resolution and ignores failing segments. -/
def deepestResolved : List Album → Option Album → List String → Option Album
  | _, best, [] => best
  | current, best, id :: rest =>
    match current.find? (fun a => a.id == id) with
    | some a => deepestResolved a.subAlbums (some a) rest
    | none => deepestResolved current best rest

-- CONCRETE ENVIRONMENTS USED BY COUNTEREXAMPLES AND WITNESSES --

/-- A GET environment whose first three attempts answer 500 and whose
fourth answers 2xx with a record carrying one album. -/
def resp3fail : Nat → FetchAttempt := fun n =>
  if n < 3 then .httpError 500 else .ok [⟨"1", some [Album.mk "x" "X" [] []]⟩]

/-- A GET environment that always answers 500. -/
def respAll500 : Nat → FetchAttempt := fun _ => .httpError 500

/-- An id supply that always returns the same string — a possible run of
`Math.random().toString(36).substr(2, 9)`. -/
def supConst : Nat → String := fun _ => "x"

/-- An injective id supply (n letters a). -/
def supW : Nat → String := fun n => ⟨List.replicate n 'a'⟩

-- BASIC HELPER LEMMAS --

theorem cnt_append (x : String) : ∀ l1 l2, cnt x (l1 ++ l2) = cnt x l1 + cnt x l2
  | [], _ => by simp [cnt]
  | y :: rest, l2 => by rw [List.cons_append, cnt, cnt, cnt_append x rest l2]; omega

theorem cnt_pos_of_mem {x : String} : ∀ {l : List String}, x ∈ l → 0 < cnt x l
  | y :: rest, h => by
    rw [cnt]
    rcases List.mem_cons.mp h with h1 | h2
    · subst h1; simp
    · have := cnt_pos_of_mem h2; omega

theorem mem_of_cnt_pos {x : String} : ∀ {l : List String}, 0 < cnt x l → x ∈ l
  | [], h => by rw [cnt] at h; omega
  | y :: rest, h => by
    rw [cnt] at h
    by_cases hyx : y = x
    · exact hyx ▸ List.mem_cons_self y rest
    · rw [if_neg hyx] at h
      exact List.mem_cons_of_mem y (mem_of_cnt_pos (by omega))

theorem nodup_of_cnt_le_one : ∀ {l : List String}, (∀ x, cnt x l ≤ 1) → l.Nodup
  | [], _ => List.nodup_nil
  | y :: rest, h => by
    rw [List.nodup_cons]
    constructor
    · intro hmem
      have h1 := cnt_pos_of_mem hmem
      have h2 := h y
      rw [cnt, if_pos rfl] at h2
      omega
    · refine nodup_of_cnt_le_one (fun x => ?_)
      have := h x
      rw [cnt] at this
      omega

theorem allIds_append : ∀ l1 l2 : List Album, allIds (l1 ++ l2) = allIds l1 ++ allIds l2
  | [], l2 => by simp [allIds]
  | a :: rest, l2 => by
    rw [List.cons_append, allIds, allIds, allIds_append rest l2, List.append_assoc]

-- C5 HELPERS --

theorem deleteRecursive_notfound (i : String) : ∀ l, countId i l = 0 → deleteRecursive i l = l
  | [], _ => by rw [deleteRecursive]
  | .mk j n imgs subs :: rest, h => by
    rw [countId] at h
    cases hji : j == i with
    | true => rw [hji] at h; simp at h
    | false =>
      rw [hji] at h
      simp only [Bool.false_eq_true, if_false, Nat.zero_add] at h
      rw [deleteRecursive, hji]
      simp only [Bool.false_eq_true, if_false]
      rw [deleteRecursive_notfound i subs (by omega), deleteRecursive_notfound i rest (by omega)]


-- C2 / C3 HELPERS --

theorem getCurrentAlbum_nil : ∀ p, getCurrentAlbum [] p = none
  | [] => by rw [getCurrentAlbum]
  | id :: rest => by
    cases rest with
    | nil => simp [getCurrentAlbum]
    | cons r rs =>
      simpa [getCurrentAlbum] using getCurrentAlbum_nil (r :: rs)

theorem getCurrentAlbum_eq_resolveFull : ∀ (p : List String) (l : List Album),
    getCurrentAlbum l p = resolveFull l p
  | [], _ => by rw [getCurrentAlbum, resolveFull]
  | id :: rest, l => by
    cases rest with
    | nil =>
      cases h : l.find? (fun a => a.id == id) <;>
        simp [getCurrentAlbum, resolveFull, h]
    | cons r rs =>
      cases h : l.find? (fun a => a.id == id) with
      | some a =>
        simpa [getCurrentAlbum, resolveFull, h] using
          getCurrentAlbum_eq_resolveFull (r :: rs) a.subAlbums
      | none =>
        simpa [getCurrentAlbum, resolveFull, h] using getCurrentAlbum_nil (r :: rs)

theorem unresolved_tail_core (x : String) : ∀ (p : List String) (l : List Album),
    (getCurrentDirectory l p).find? (fun a => a.id == x) = none →
    getCurrentDirectory l (p ++ [x]) = getCurrentDirectory l p
    ∧ getCurrentAlbum l (p ++ [x]) = none
  | [], l, h => by
    rw [getCurrentDirectory] at h
    refine ⟨?_, ?_⟩
    · simp [getCurrentDirectory, h]
    · rw [List.nil_append, getCurrentAlbum]
      exact h
  | id :: rest, l, h => by
    rw [getCurrentDirectory] at h
    cases hf : l.find? (fun a => a.id == id) with
    | some folder =>
      rw [hf] at h
      have ih := unresolved_tail_core x rest folder.subAlbums h
      refine ⟨?_, ?_⟩
      · rw [List.cons_append]
        simp only [getCurrentDirectory, hf]
        exact ih.1
      · have h2 := ih.2
        rw [List.cons_append]
        cases rest with
        | nil =>
          rw [List.nil_append] at h2
          simpa [getCurrentAlbum, hf] using h2
        | cons r rs =>
          rw [List.cons_append] at h2
          simpa [getCurrentAlbum, hf] using h2
    | none =>
      rw [hf] at h
      have ih := unresolved_tail_core x rest l h
      refine ⟨?_, ?_⟩
      · rw [List.cons_append]
        simp only [getCurrentDirectory, hf]
        exact ih.1
      · rw [List.cons_append]
        cases rest with
        | nil => simp [getCurrentAlbum, hf]
        | cons r rs =>
          simpa [getCurrentAlbum, hf] using getCurrentAlbum_nil (r :: (rs ++ [x]))

-- CLAIM C1 --

/-- C1: the four tree operations are claimed to be pure and to leave the
input tree unchanged.  This fails for `deleteAlbum`: deleting the nested
album "b" leaves the caller's original tree reachable from the original
root with node "b" pruned away (`item.subAlbums` is reassigned in place on
the shared node objects), so the observable value of the input after the
call differs from the input.  The code's own shallow copy `[...albums]`
and the careful per-node copies in `deleteImage` show non-mutation was the
intent, making this a code bug rather than a spec error. -/
theorem deleteAlbum_mutates_input :
    deleteAlbumInputAfter "b" [Album.mk "a" "A" [] [Album.mk "b" "B" [] []]]
      ≠ [Album.mk "a" "A" [] [Album.mk "b" "B" [] []]] := by
  simp [deleteAlbumInputAfter, deleteRecursive, Album.id, Album.name, Album.images,
    Album.subAlbums]

-- CLAIM C2 --

/-- C2 counterexample: with the tree `[a]` and the path `["a", "zz"]`, the
prefix `["a"]` resolves (the deepest successfully-resolved album is "a"),
but `getCurrentAlbum` returns no album rather than album "a", because the
loop keeps only the find-result of the final iteration. -/
theorem getCurrentAlbum_not_deepest :
    deepestResolved [Album.mk "a" "A" [] []] none ["a", "zz"]
      = some (Album.mk "a" "A" [] [])
    ∧ getCurrentAlbum [Album.mk "a" "A" [] []] ["a", "zz"] = none := by
  constructor
  · simp [deepestResolved, Album.id, Album.subAlbums]
  · simp [getCurrentAlbum, Album.id, Album.subAlbums]

/-- C2 as amended: `currentAlbum` returns the album addressed by the path
exactly when every segment (including the last) resolves at its step, and
returns no album when the path is empty or when any segment fails to
resolve — not the album of the longest resolving prefix. -/
theorem getCurrentAlbum_full_resolution (l : List Album) (p : List String) :
    getCurrentAlbum l p = resolveFull l p :=
  getCurrentAlbum_eq_resolveFull p l

-- CLAIM C3 --

/-- C3 counterexample: tree `[a [b]]`, path `["a", "zz"]` whose final
segment does not resolve.  The visible image list is empty, but the visible
sub-album list is `getCurrentDirectory`'s fallback — the directory of the
resolving prefix, here `[b]` — and not empty as claimed. -/
theorem unresolved_tail_nonempty_dir :
    getCurrentDirectory [Album.mk "a" "A" [] [Album.mk "b" "B" [] []]] ["a", "zz"]
      = [Album.mk "b" "B" [] []]
    ∧ getCurrentDirectory [Album.mk "a" "A" [] [Album.mk "b" "B" [] []]] ["a", "zz"] ≠ []
    ∧ activePhotos [Album.mk "a" "A" [] [Album.mk "b" "B" [] []]] ["a", "zz"] false = [] := by
  refine ⟨?_, ?_, ?_⟩
  · simp [getCurrentDirectory, Album.id, Album.subAlbums]
  · simp [getCurrentDirectory, Album.id, Album.subAlbums]
  · simp [activePhotos, getCurrentAlbum, Album.id, Album.subAlbums]

/-- C3 as amended: when the final path segment fails to resolve in the
current directory, no error is raised (all views are total), the visible
image list is empty, and the visible sub-album list equals the directory
reached without that segment (the silent-fallback view, which may be
non-empty) rather than the empty list. -/
theorem unresolved_tail_view (l : List Album) (p : List String) (x : String) (b : Bool)
    (h : (getCurrentDirectory l p).find? (fun a => a.id == x) = none) :
    getCurrentDirectory l (p ++ [x]) = getCurrentDirectory l p
    ∧ activePhotos l (p ++ [x]) b = [] := by
  obtain ⟨h1, h2⟩ := unresolved_tail_core x p l h
  exact ⟨h1, by rw [activePhotos, h2]⟩

theorem unresolved_tail_view_witness :
    (getCurrentDirectory [Album.mk "a" "A" [] [Album.mk "b" "B" [] []]] ["a"]).find?
        (fun a => a.id == "zz") = none
    ∧ (getCurrentDirectory [Album.mk "a" "A" [] [Album.mk "b" "B" [] []]] (["a"] ++ ["zz"])
          = getCurrentDirectory [Album.mk "a" "A" [] [Album.mk "b" "B" [] []]] ["a"]
        ∧ activePhotos [Album.mk "a" "A" [] [Album.mk "b" "B" [] []]] (["a"] ++ ["zz"]) false
          = []) :=
  ⟨by simp [getCurrentDirectory, Album.id, Album.subAlbums],
   unresolved_tail_view [Album.mk "a" "A" [] [Album.mk "b" "B" [] []]] ["a"] "zz" false
     (by simp [getCurrentDirectory, Album.id, Album.subAlbums])⟩

-- CLAIM C5 --

/-- C5: deleting an album id that occurs nowhere in the tree returns a tree
structurally equal to the input. -/
theorem deleteAlbum_absent_noop (i : String) (l : List Album) (h : countId i l = 0) :
    deleteRecursive i l = l :=
  deleteRecursive_notfound i l h

theorem deleteAlbum_absent_noop_witness :
    countId "zz" [Album.mk "a" "A" [] [Album.mk "b" "B" [] []]] = 0
    ∧ deleteRecursive "zz" [Album.mk "a" "A" [] [Album.mk "b" "B" [] []]]
      = [Album.mk "a" "A" [] [Album.mk "b" "B" [] []]] :=
  ⟨by simp [countId], deleteAlbum_absent_noop "zz" _ (by simp [countId])⟩

-- CLAIM C8 --

/-- C8: creating an album whose name is empty or whitespace-only is
rejected before any mutation: the tree is returned unchanged and
`persistChanges` (the save/sync call) is never invoked. -/
theorem createAlbum_blank_rejected (newId name : String) (path : List String)
    (l : List Album) (h : isBlank name = true) :
    (createAlbum newId name path l).items = l
    ∧ (createAlbum newId name path l).didSync = false := by
  rw [createAlbum, if_pos h]
  exact ⟨rfl, rfl⟩

theorem createAlbum_blank_rejected_witness :
    isBlank "  " = true
    ∧ ((createAlbum "x1" "  " ["a"] [Album.mk "a" "A" [] []]).items = [Album.mk "a" "A" [] []]
        ∧ (createAlbum "x1" "  " ["a"] [Album.mk "a" "A" [] []]).didSync = false) :=
  ⟨by decide, createAlbum_blank_rejected "x1" "  " ["a"] [Album.mk "a" "A" [] []] (by decide)⟩

-- CLAIM C9 --

/-- C9: `save(tree)` always issues the PUT of `{ data: tree }` to record
"1" first, issues the POST of `{ id: "1", data: tree }` exactly when the
PUT completed with a non-ok status, and — whatever the outcome of either
request — leaves the already-applied local tree, the status and the error
fields untouched (only the transient `syncing` flag is toggled and ends
false). -/
theorem syncToBackend_spec (putR postR : FetchOutcome) (s : StoreState)
    (tree : List Album) :
    (syncToBackend putR postR s tree).1.items = s.items
    ∧ (syncToBackend putR postR s tree).1.status = s.status
    ∧ (syncToBackend putR postR s tree).1.error = s.error
    ∧ (syncToBackend putR postR s tree).1.syncing = false
    ∧ (syncToBackend putR postR s tree).2
      = ⟨"PUT", API_BASE ++ "/1", none, tree⟩
        :: (if putR = FetchOutcome.notOk then [⟨"POST", API_BASE, some "1", tree⟩] else []) := by
  cases putR <;> simp [syncToBackend, albumReducer]

-- CLAIM C4 --

/-- C4 counterexample: `fetchWithRetry` is called with `retries = 3`, which
allows one initial attempt plus three retries.  After three consecutive 500
responses a fourth attempt is still made; if it succeeds, `load()` reports
success and hydrates the fetched tree — no terminal error is surfaced and
the tree does change, contradicting the claim that three consecutive 500s
already produce a failed status with the tree unchanged. -/
theorem load_succeeds_after_three_500s :
    (fetchAlbums resp3fail initialState).status = Status.succeeded
    ∧ (fetchAlbums resp3fail initialState).items = [Album.mk "x" "X" [] []]
    ∧ (fetchAlbums resp3fail initialState).items ≠ initialState.items := by
  refine ⟨?_, ?_, ?_⟩ <;>
    simp [fetchAlbums, fetchWithRetry, resp3fail, albumReducer, initialState]

/-- C4 as amended: if the GET fails on all four attempts (the initial one
plus the three retries), `load()` dispatches the terminal FETCH_ERROR —
status becomes failed with the error message set — and the local tree is
left unchanged from its previous (or initial empty) state. -/
theorem load_fails_after_four_failures (resp : Nat → FetchAttempt) (s : StoreState)
    (h : ∀ n, n < 4 → resp n = FetchAttempt.httpError 500) :
    (fetchAlbums resp s).status = Status.failed
    ∧ (fetchAlbums resp s).items = s.items
    ∧ (fetchAlbums resp s).error = some fetchErrorMessage := by
  have e : fetchWithRetry resp 0 3 = .error () := by
    simp [fetchWithRetry, h 0 (by omega), h 1 (by omega), h 2 (by omega), h 3 (by omega)]
  simp [fetchAlbums, e, albumReducer]

theorem load_fails_after_four_failures_witness :
    (fetchAlbums respAll500 initialState).status = Status.failed
    ∧ (fetchAlbums respAll500 initialState).items = initialState.items
    ∧ (fetchAlbums respAll500 initialState).error = some fetchErrorMessage :=
  load_fails_after_four_failures respAll500 initialState (fun _ _ => rfl)

-- CLAIM C6 HELPERS --

theorem updateAt_zero (t : String) (f : Album → Album) :
    ∀ l, countId t l = 0 → updateAt t f l = l
  | [], _ => by rw [updateAt]
  | .mk i n imgs subs :: rest, h => by
    rw [countId] at h
    cases hit : i == t with
    | true => rw [hit] at h; simp at h
    | false =>
      rw [hit] at h
      simp only [Bool.false_eq_true, if_false, Nat.zero_add] at h
      rw [updateAt, hit]
      simp only [Bool.false_eq_true, if_false]
      rw [updateAt_zero t f subs (by omega), updateAt_zero t f rest (by omega)]

theorem specInsertImages_zero (t : String) (new : List Image) :
    ∀ l, countId t l = 0 → specInsertImages t new l = l
  | [], _ => by rw [specInsertImages]
  | .mk i n imgs subs :: rest, h => by
    rw [countId] at h
    cases hit : i == t with
    | true => rw [hit] at h; simp at h
    | false =>
      rw [hit] at h
      simp only [Bool.false_eq_true, if_false, Nat.zero_add] at h
      rw [specInsertImages, hit]
      simp only [Bool.false_eq_true, if_false]
      rw [specInsertImages_zero t new subs (by omega), specInsertImages_zero t new rest (by omega)]

theorem specInsertImages_nil (t : String) : ∀ l, specInsertImages t [] l = l
  | [] => by rw [specInsertImages]
  | .mk i n imgs subs :: rest => by
    rw [specInsertImages, specInsertImages_nil t subs, specInsertImages_nil t rest]
    simp

theorem uploadUpdate_eq_spec (t : String) (new : List Image) :
    ∀ l, countId t l = 1 →
    updateAt t (fun a => Album.mk a.id a.name (a.images ++ new) a.subAlbums) l
      = specInsertImages t new l
  | [], h => by simp [countId] at h
  | .mk i n imgs subs :: rest, h => by
    rw [countId] at h
    rw [updateAt, specInsertImages]
    cases hit : i == t with
    | true =>
      rw [hit] at h
      simp only [if_true, if_pos] at h
      have hs : countId t subs = 0 := by omega
      have hr : countId t rest = 0 := by omega
      rw [updateAt_zero t _ rest hr, specInsertImages_zero t new subs hs,
        specInsertImages_zero t new rest hr]
      simp [hit, Album.id, Album.name, Album.images, Album.subAlbums]
    | false =>
      rw [hit] at h
      simp only [Bool.false_eq_true, if_false, Nat.zero_add] at h
      simp only [hit, Bool.false_eq_true, if_false]
      by_cases h1 : countId t subs = 1
      · have hr : countId t rest = 0 := by omega
        rw [uploadUpdate_eq_spec t new subs h1, updateAt_zero t _ rest hr,
          specInsertImages_zero t new rest hr]
      · have hs : countId t subs = 0 := by omega
        have hr : countId t rest = 1 := by omega
        rw [uploadUpdate_eq_spec t new rest hr, updateAt_zero t _ subs hs,
          specInsertImages_zero t new subs hs]

-- CLAIM C6 --

/-- C6: for a non-empty path whose last id occurs exactly once in the
forest, uploading a list of images rewrites the tree exactly as the
specification transformation `specInsertImages` does: the addressed
folder's images become the originals followed by the new images in order
(k more entries), and every other album — id, name, nesting structure and
images — is left unchanged. -/
theorem uploadImages_spec (path : List String) (new : List Image) (l : List Album)
    (t : String) (hlast : path.getLast? = some t) (hcount : countId t l = 1) :
    handleFileUpload path new l = specInsertImages t new l := by
  cases hn : new.isEmpty with
  | true =>
    have hnil := List.isEmpty_iff.mp hn
    subst hnil
    rw [specInsertImages_nil t l, handleFileUpload.eq_def, hlast]
    simp
  | false =>
    rw [handleFileUpload.eq_def, hlast]
    simp only [hn, Bool.false_eq_true, if_false]
    exact uploadUpdate_eq_spec t new l hcount

theorem uploadImages_spec_witness :
    countId "a" [Album.mk "a" "A" [⟨"i1", "one.png", "u1", "1.0 KB"⟩]
        [Album.mk "c" "C" [] []]] = 1
    ∧ handleFileUpload ["a"] [⟨"i2", "two.png", "u2", "2.0 KB"⟩]
        [Album.mk "a" "A" [⟨"i1", "one.png", "u1", "1.0 KB"⟩] [Album.mk "c" "C" [] []]]
      = specInsertImages "a" [⟨"i2", "two.png", "u2", "2.0 KB"⟩]
        [Album.mk "a" "A" [⟨"i1", "one.png", "u1", "1.0 KB"⟩] [Album.mk "c" "C" [] []]] :=
  ⟨by simp [countId],
   uploadImages_spec ["a"] [⟨"i2", "two.png", "u2", "2.0 KB"⟩]
     [Album.mk "a" "A" [⟨"i1", "one.png", "u1", "1.0 KB"⟩] [Album.mk "c" "C" [] []]]
     "a" (by simp) (by simp [countId])⟩

-- CLAIM C10 HELPERS --

theorem deleteFromRecursive_getIdx (i : String) : ∀ (l : List Album) (j : Nat),
    (deleteFromRecursive i l)[j]? = (l[j]?).map (fun a =>
      Album.mk a.id a.name (a.images.filter fun im => !(im.id == i))
        (deleteFromRecursive i a.subAlbums))
  | [], j => by simp [deleteFromRecursive]
  | .mk jd n imgs subs :: rest, 0 => by
    rw [deleteFromRecursive]
    simp [Album.id, Album.name, Album.images, Album.subAlbums]
  | .mk jd n imgs subs :: rest, j + 1 => by
    rw [deleteFromRecursive]
    simp only [List.getElem?_cons_succ]
    exact deleteFromRecursive_getIdx i rest j

theorem deleteFromRecursive_getAt (i : String) : ∀ (addr : List Nat) (l : List Album),
    ((getAt (deleteFromRecursive i l) addr).map Album.id = (getAt l addr).map Album.id)
    ∧ ((getAt (deleteFromRecursive i l) addr).map Album.name
        = (getAt l addr).map Album.name)
    ∧ ((getAt (deleteFromRecursive i l) addr).map Album.images
        = (getAt l addr).map fun a => a.images.filter fun im => !(im.id == i))
  | [], l => by simp [getAt]
  | j :: rest, l => by
    rw [getAt.eq_def, getAt.eq_def]
    simp only [deleteFromRecursive_getIdx]
    cases hj : l[j]? with
    | none => simp
    | some a =>
      simp only [Option.map_some']
      cases rest with
      | nil => cases a with
        | mk ai an aimgs asubs => simp [Album.id, Album.name, Album.images]
      | cons r rs =>
        cases a with
        | mk ai an aimgs asubs =>
          simpa [Album.subAlbums] using deleteFromRecursive_getAt i (r :: rs) asubs

-- CLAIM C10 --

/-- C10: deleting an image changes only images lists — at every address the
resulting tree has an album exactly when the original does, with the same
id and name (hence the same albums, nesting structure and order), and its
images equal the original images with entries matching the given id
removed. -/
theorem deleteImage_frame (i : String) (l : List Album) (addr : List Nat) :
    ((getAt (deleteFromRecursive i l) addr).map Album.id = (getAt l addr).map Album.id)
    ∧ ((getAt (deleteFromRecursive i l) addr).map Album.name
        = (getAt l addr).map Album.name)
    ∧ ((getAt (deleteFromRecursive i l) addr).map Album.images
        = (getAt l addr).map fun a => a.images.filter fun im => !(im.id == i)) :=
  deleteFromRecursive_getAt i addr l

-- CLAIM C7 HELPERS: COUNT ARITHMETIC OVER IDENTIFIERS --

theorem cnt_allIds_nil (x : String) : cnt x (allIds []) = 0 := by
  rw [allIds, cnt]

theorem cnt_allIdsA_mk (x i n : String) (imgs : List Image) (subs : List Album) :
    cnt x (allIdsA (Album.mk i n imgs subs))
      = (if i = x then 1 else 0) + cnt x (imgs.map Image.id) + cnt x (allIds subs) := by
  rw [allIdsA, cnt, cnt_append]
  omega

theorem cnt_allIds_cons (x : String) (a : Album) (rest : List Album) :
    cnt x (allIds (a :: rest)) = cnt x (allIdsA a) + cnt x (allIds rest) := by
  rw [allIds, cnt_append]

theorem cnt_supRange_le_one {sup : Nat → String} (hinj : Function.Injective sup) (x : String) :
    ∀ (m k : Nat),
      cnt x (supRange sup k m) ≤ 1
      ∧ (∀ j, j < k → sup j = x → cnt x (supRange sup k m) = 0)
  | 0, k => by simp [supRange, cnt]
  | m + 1, k => by
    have ih := cnt_supRange_le_one hinj x m (k + 1)
    rw [supRange, cnt]
    by_cases h : sup k = x
    · have hz : cnt x (supRange sup (k + 1) m) = 0 := ih.2 k (by omega) h
      refine ⟨by rw [if_pos h]; omega, fun j hj hx => ?_⟩
      have : j = k := hinj (by rw [hx, h])
      omega
    · refine ⟨by rw [if_neg h]; have := ih.1; omega, fun j hj hx => ?_⟩
      rw [if_neg h]
      have := ih.2 j (by omega) hx
      omega

theorem supRange_mem {sup : Nat → String} {x : String} :
    ∀ (m k : Nat), 0 < cnt x (supRange sup k m) → ∃ j, k ≤ j ∧ j < k + m ∧ sup j = x
  | 0, k, h => by simp [supRange, cnt] at h
  | m + 1, k, h => by
    rw [supRange, cnt] at h
    by_cases hx : sup k = x
    · exact ⟨k, by omega, by omega, hx⟩
    · rw [if_neg hx] at h
      have h' : 0 < cnt x (supRange sup (k + 1) m) := by omega
      obtain ⟨j, hj1, hj2, hj3⟩ := supRange_mem m (k + 1) h'
      exact ⟨j, by omega, by omega, hj3⟩

theorem supRange_split (sup : Nat → String) (x : String) :
    ∀ (m1 m2 k : Nat), cnt x (supRange sup k (m1 + m2))
      = cnt x (supRange sup k m1) + cnt x (supRange sup (k + m1) m2)
  | 0, m2, k => by simp [supRange, cnt]
  | m1 + 1, m2, k => by
    have : m1 + 1 + m2 = (m1 + m2) + 1 := by omega
    rw [this, supRange, supRange, cnt, cnt, supRange_split sup x m1 m2 (k + 1)]
    have : k + 1 + m1 = k + (m1 + 1) := by omega
    rw [this]
    omega

theorem mkImages_map_id (sup : Nat → String) :
    ∀ (metas : List FileMeta) (k : Nat),
      (mkImages sup k metas).map Image.id = supRange sup k metas.length
  | [], k => by rw [mkImages]; rfl
  | m :: rest, k => by
    rw [mkImages, List.map_cons, List.length_cons, supRange, mkImages_map_id sup rest (k + 1)]

theorem countId_le_cnt (t : String) : ∀ l, countId t l ≤ cnt t (allIds l)
  | [] => by rw [countId, cnt_allIds_nil]
  | .mk i n imgs subs :: rest => by
    have h1 := countId_le_cnt t subs
    have h2 := countId_le_cnt t rest
    rw [countId, cnt_allIds_cons, cnt_allIdsA_mk]
    by_cases h : i = t
    · subst h
      simp only [beq_self_eq_true, if_true, if_pos rfl]
      omega
    · have hb : (i == t) = false := by simpa using h
      rw [hb, if_neg h]
      simp only [Bool.false_eq_true, if_false]
      omega

theorem cnt_filter_map_le (x : String) (q : Image → Bool) :
    ∀ imgs : List Image, cnt x ((imgs.filter q).map Image.id) ≤ cnt x (imgs.map Image.id)
  | [] => by simp [cnt]
  | im :: rest => by
    have ih := cnt_filter_map_le x q rest
    rw [List.filter_cons]
    cases q im with
    | true =>
      simp only [if_true, if_pos rfl]
      rw [List.map_cons, List.map_cons, cnt, cnt]
      omega
    | false =>
      simp only [Bool.false_eq_true, if_false]
      rw [List.map_cons, cnt]
      omega

theorem deleteRecursive_cnt (i x : String) :
    ∀ l, cnt x (allIds (deleteRecursive i l)) ≤ cnt x (allIds l)
  | [] => by rw [deleteRecursive]
  | .mk j n imgs subs :: rest => by
    have h1 := deleteRecursive_cnt i x subs
    have h2 := deleteRecursive_cnt i x rest
    rw [deleteRecursive]
    cases hji : j == i with
    | true =>
      simp only [if_true, if_pos rfl]
      rw [cnt_allIds_cons, cnt_allIdsA_mk]
      omega
    | false =>
      simp only [Bool.false_eq_true, if_false]
      rw [cnt_allIds_cons, cnt_allIds_cons, cnt_allIdsA_mk, cnt_allIdsA_mk]
      omega

theorem deleteFromRecursive_cnt (i x : String) :
    ∀ l, cnt x (allIds (deleteFromRecursive i l)) ≤ cnt x (allIds l)
  | [] => by rw [deleteFromRecursive]
  | .mk j n imgs subs :: rest => by
    have h1 := deleteFromRecursive_cnt i x subs
    have h2 := deleteFromRecursive_cnt i x rest
    have h3 := cnt_filter_map_le x (fun im => !(im.id == i)) imgs
    rw [deleteFromRecursive, cnt_allIds_cons, cnt_allIds_cons, cnt_allIdsA_mk, cnt_allIdsA_mk]
    omega

theorem updateAt_cnt (t : String) (f : Album → Album) (newIds : List String)
    (hf : ∀ a, (a.id == t) = true →
      ∀ x, cnt x (allIdsA (f a)) = cnt x (allIdsA a) + cnt x newIds) :
    ∀ l, countId t l = 1 →
      ∀ x, cnt x (allIds (updateAt t f l)) = cnt x (allIds l) + cnt x newIds
  | [], h => by rw [countId] at h; omega
  | .mk i n imgs subs :: rest, h => by
    intro x
    rw [countId] at h
    rw [updateAt]
    cases hit : i == t with
    | true =>
      rw [hit] at h
      simp only [if_true, if_pos rfl] at h ⊢
      have hs : countId t subs = 0 := by omega
      have hr : countId t rest = 0 := by omega
      rw [updateAt_zero t f rest hr, cnt_allIds_cons, cnt_allIds_cons,
        hf (Album.mk i n imgs subs) (by simpa [Album.id] using hit) x]
      omega
    | false =>
      rw [hit] at h
      simp only [Bool.false_eq_true, if_false, Nat.zero_add] at h ⊢
      rw [cnt_allIds_cons, cnt_allIds_cons, cnt_allIdsA_mk, cnt_allIdsA_mk]
      by_cases h1 : countId t subs = 1
      · have hr : countId t rest = 0 := by omega
        rw [updateAt_cnt t f newIds hf subs h1 x, updateAt_zero t f rest hr]
        omega
      · have hs : countId t subs = 0 := by omega
        have hr : countId t rest = 1 := by omega
        rw [updateAt_cnt t f newIds hf rest hr x, updateAt_zero t f subs hs]
        omega

theorem replaceFirst_cnt (p : Album → Bool) (y : Album) (x : String) :
    ∀ (subs : List Album) (folder : Album), subs.find? p = some folder →
    cnt x (allIds (replaceFirst p y subs)) + cnt x (allIdsA folder)
      = cnt x (allIds subs) + cnt x (allIdsA y)
  | [], folder, h => by simp [List.find?] at h
  | hd :: rest, folder, h => by
    rw [replaceFirst]
    cases hp : p hd with
    | true =>
      rw [List.find?_cons_of_pos _ hp, Option.some.injEq] at h
      subst h
      simp only [if_true, if_pos rfl]
      rw [cnt_allIds_cons, cnt_allIds_cons]
      omega
    | false =>
      rw [List.find?_cons_of_neg _ (by simp [hp])] at h
      have ih := replaceFirst_cnt p y x rest folder h
      simp only [hp, Bool.false_eq_true, if_false]
      rw [cnt_allIds_cons, cnt_allIds_cons]
      omega

mutual
theorem processEntry_spec (sup : Nat → String) :
    ∀ (e : Entry) (a : Album) (k : Nat),
    ∃ m, (processEntry sup e a k).2 = k + m
      ∧ (processEntry sup e a k).1.id = a.id
      ∧ (processEntry sup e a k).1.name = a.name
      ∧ ∀ x, cnt x (allIdsA (processEntry sup e a k).1)
          = cnt x (allIdsA a) + cnt x (supRange sup k m)
  | .file nm fType url size, .mk i n imgs subs, k => by
    rw [processEntry]
    cases hp : "image/".data.isPrefixOf fType.data with
    | true =>
      simp only [if_true, if_pos rfl]
      refine ⟨1, rfl, rfl, rfl, fun x => ?_⟩
      rw [cnt_allIdsA_mk, cnt_allIdsA_mk, List.map_append, cnt_append]
      simp only [List.map_cons, List.map_nil, supRange, cnt]
      omega
    | false =>
      simp only [Bool.false_eq_true, if_false]
      refine ⟨0, rfl, trivial, trivial, fun x => ?_⟩
      simp only [supRange, cnt]
      omega
  | .dir nm children, .mk i n imgs subs, k => by
    rw [processEntry]
    cases hf : subs.find? (fun f => f.name == nm) with
    | some folder =>
      obtain ⟨m, hm, hid, hname, hcnt⟩ := processEntries_spec sup children folder k
      refine ⟨m, hm, rfl, rfl, fun x => ?_⟩
      have hrf := replaceFirst_cnt (fun f => f.name == nm)
        (processEntries sup children folder k).1 x subs folder hf
      have hc := hcnt x
      rw [cnt_allIdsA_mk, cnt_allIdsA_mk]
      omega
    | none =>
      obtain ⟨m2, hm, hid, hname, hcnt⟩ :=
        processEntries_spec sup children (Album.mk (sup k) nm [] []) (k + 1)
      refine ⟨m2 + 1, ?_, rfl, rfl, fun x => ?_⟩
      · rw [hm]; omega
      · have hc := hcnt x
        rw [cnt_allIdsA_mk] at hc
        simp only [List.map_nil, cnt, cnt_allIds_nil] at hc
        rw [cnt_allIdsA_mk, cnt_allIdsA_mk, allIds_append, cnt_append,
          cnt_allIds_cons, cnt_allIds_nil, supRange, cnt]
        omega
theorem processEntries_spec (sup : Nat → String) :
    ∀ (es : List Entry) (a : Album) (k : Nat),
    ∃ m, (processEntries sup es a k).2 = k + m
      ∧ (processEntries sup es a k).1.id = a.id
      ∧ (processEntries sup es a k).1.name = a.name
      ∧ ∀ x, cnt x (allIdsA (processEntries sup es a k).1)
          = cnt x (allIdsA a) + cnt x (supRange sup k m)
  | [], a, k => by
    rw [processEntries]
    refine ⟨0, rfl, rfl, rfl, fun x => ?_⟩
    simp [supRange, cnt]
  | e :: rest, a, k => by
    rw [processEntries]
    obtain ⟨m1, hm1, hid1, hname1, hcnt1⟩ := processEntry_spec sup e a k
    obtain ⟨m2, hm2, hid2, hname2, hcnt2⟩ :=
      processEntries_spec sup rest (processEntry sup e a k).1 (processEntry sup e a k).2
    refine ⟨m1 + m2, ?_, ?_, ?_, fun x => ?_⟩
    · rw [hm2, hm1]; omega
    · rw [hid2, hid1]
    · rw [hname2, hname1]
    · have hs := supRange_split sup x m1 m2 k
      have h2 := hcnt2 x
      have h1 := hcnt1 x
      rw [hm1] at h2 ⊢
      omega
end

theorem modifyIdx_cnt (f : Album → Album) (x : String) :
    ∀ (l : List Album) (j : Nat) (a : Album), l[j]? = some a →
    cnt x (allIds (modifyIdx f l j)) + cnt x (allIdsA a)
      = cnt x (allIds l) + cnt x (allIdsA (f a))
  | [], j, a, h => by simp at h
  | b :: rest, 0, a, h => by
    simp only [List.getElem?_cons_zero, Option.some.injEq] at h
    subst h
    rw [modifyIdx, cnt_allIds_cons, cnt_allIds_cons]
    omega
  | b :: rest, j + 1, a, h => by
    simp only [List.getElem?_cons_succ] at h
    have ih := modifyIdx_cnt f x rest j a h
    rw [modifyIdx, cnt_allIds_cons, cnt_allIds_cons]
    omega

theorem modifyAt_cnt (f : Album → Album) (x : String) :
    ∀ (addr : List Nat) (l : List Album) (a : Album), getAt l addr = some a →
    cnt x (allIds (modifyAt f l addr)) + cnt x (allIdsA a)
      = cnt x (allIds l) + cnt x (allIdsA (f a))
  | [], l, a, h => by rw [getAt] at h; cases h
  | j :: rest, l, a, h => by
    cases rest with
    | nil =>
      rw [getAt] at h
      cases hj : l[j]? with
      | none => rw [hj] at h; cases h
      | some b =>
        rw [hj, Option.some.injEq] at h
        subst h
        rw [modifyAt]
        exact modifyIdx_cnt f x l j _ hj
    | cons r rs =>
      rw [getAt] at h
      cases hj : l[j]? with
      | none => rw [hj] at h; cases h
      | some b =>
        rw [hj] at h
        rcases b with ⟨bi, bn, bImgs, bSubs⟩
        simp only [Album.subAlbums] at h
        have ih := modifyAt_cnt f x (r :: rs) bSubs a h
        have hmi : cnt x (allIds (modifyIdx
              (fun c => Album.mk c.id c.name c.images (modifyAt f c.subAlbums (r :: rs))) l j))
            + cnt x (allIdsA (Album.mk bi bn bImgs bSubs))
          = cnt x (allIds l)
            + cnt x (allIdsA (Album.mk bi bn bImgs (modifyAt f bSubs (r :: rs)))) :=
          modifyIdx_cnt _ x l j _ hj
        rw [cnt_allIdsA_mk, cnt_allIdsA_mk] at hmi
        rw [modifyAt]
        omega

theorem handleDropAux_cnt (sup : Nat → String) (items : List Entry) (l : List Album)
    (k : Nat) : ∀ (o : Option (List Nat)),
    ∃ m, (handleDropAux sup items l k o).2 = k + m
      ∧ ∀ x, cnt x (allIds (handleDropAux sup items l k o).1)
          ≤ cnt x (allIds l) + cnt x (supRange sup k m)
  | none => by
    rw [handleDropAux]
    obtain ⟨m, hm, hid, hname, hcnt⟩ := processEntries_spec sup items (Album.mk "" "" [] l) k
    refine ⟨m, hm, fun x => ?_⟩
    rcases hr : (processEntries sup items (Album.mk "" "" [] l) k).1 with ⟨wi, wn, wImgs, wSubs⟩
    have hwi : wi = "" := by rw [hr] at hid; simpa [Album.id] using hid
    have hc := hcnt x
    rw [hr, cnt_allIdsA_mk, cnt_allIdsA_mk, hwi] at hc
    simp only [List.map_nil, cnt, cnt_allIds_nil] at hc
    simp only [Album.subAlbums]
    omega
  | some addr => by
    rw [handleDropAux]
    cases hga : getAt l addr with
    | none =>
      refine ⟨0, by simp [hga], fun x => ?_⟩
      simp [hga, supRange, cnt]
    | some a =>
      obtain ⟨m, hm, hid, hname, hcnt⟩ := processEntries_spec sup items a k
      refine ⟨m, by simpa [hga] using hm, fun x => ?_⟩
      have hmc : cnt x (allIds (modifyAt (fun _ => (processEntries sup items a k).1) l addr))
            + cnt x (allIdsA a)
          = cnt x (allIds l) + cnt x (allIdsA (processEntries sup items a k).1) :=
        modifyAt_cnt _ x addr l a hga
      have hc := hcnt x
      simp only [hga]
      omega

theorem createAlbum_items_blank (newId name : String) (path : List String) (l : List Album)
    (hb : isBlank name = true) : (createAlbum newId name path l).items = l := by
  rw [createAlbum, if_pos hb]

theorem createAlbum_items_root (newId name : String) (path : List String) (l : List Album)
    (hb : isBlank name = false) (hp : path.getLast? = none) :
    (createAlbum newId name path l).items = l ++ [Album.mk newId name [] []] := by
  rw [createAlbum, if_neg (by simp [hb]), hp]

theorem createAlbum_items_target (newId name : String) (path : List String) (l : List Album)
    (t : String) (hb : isBlank name = false) (hp : path.getLast? = some t) :
    (createAlbum newId name path l).items
      = updateAt t (fun a => Album.mk a.id a.name a.images
          (a.subAlbums ++ [Album.mk newId name [] []])) l := by
  rw [createAlbum, if_neg (by simp [hb]), hp]

theorem handleFileUpload_path_none (path : List String) (imgs : List Image) (l : List Album)
    (hp : path.getLast? = none) : handleFileUpload path imgs l = l := by
  rw [handleFileUpload.eq_def, hp]

theorem handleFileUpload_imgs_empty (path : List String) (imgs : List Image) (l : List Album)
    (t : String) (hp : path.getLast? = some t) (he : imgs.isEmpty = true) :
    handleFileUpload path imgs l = l := by
  rw [handleFileUpload.eq_def, hp]
  simp [he]

theorem handleFileUpload_target (path : List String) (imgs : List Image) (l : List Album)
    (t : String) (hp : path.getLast? = some t) (he : imgs.isEmpty = false) :
    handleFileUpload path imgs l
      = updateAt t (fun a => Album.mk a.id a.name (a.images ++ imgs) a.subAlbums) l := by
  rw [handleFileUpload.eq_def, hp]
  simp [he]

theorem inv_step {sup : Nat → String} (hinj : Function.Injective sup)
    {l l' : List Album} {k m : Nat}
    (hIH : ∀ x, cnt x (allIds l) ≤ 1 ∧ (0 < cnt x (allIds l) → ∃ j, j < k ∧ sup j = x))
    (hcnt : ∀ x, cnt x (allIds l') ≤ cnt x (allIds l) + cnt x (supRange sup k m)) :
    ∀ x, cnt x (allIds l') ≤ 1
      ∧ (0 < cnt x (allIds l') → ∃ j, j < k + m ∧ sup j = x) := by
  intro x
  obtain ⟨h1, h2⟩ := hIH x
  have hb := hcnt x
  have hsr := cnt_supRange_le_one hinj x m k
  constructor
  · rcases Nat.eq_zero_or_pos (cnt x (allIds l)) with hz | hpos
    · have := hsr.1; omega
    · obtain ⟨j, hj, hjx⟩ := h2 hpos
      have := hsr.2 j hj hjx
      omega
  · intro hpos'
    rcases Nat.eq_zero_or_pos (cnt x (allIds l)) with hz | hpos
    · have hq : 0 < cnt x (supRange sup k m) := by omega
      obtain ⟨j, hj1, hj2, hj3⟩ := supRange_mem m k hq
      exact ⟨j, by omega, hj3⟩
    · obtain ⟨j, hj, hjx⟩ := h2 hpos
      exact ⟨j, by omega, hjx⟩

theorem reach_inv {sup : Nat → String} (hinj : Function.Injective sup) :
    ∀ {l : List Album} {k : Nat}, Reach sup l k →
    ∀ x, cnt x (allIds l) ≤ 1 ∧ (0 < cnt x (allIds l) → ∃ j, j < k ∧ sup j = x) := by
  intro l k h
  induction h with
  | init =>
    intro x
    rw [cnt_allIds_nil]
    exact ⟨by omega, fun hpos => absurd hpos (by omega)⟩
  | @createStep name path l k hR ih =>
    by_cases hb : isBlank name = true
    · rw [createAlbum_items_blank _ _ _ _ hb, createConsumes, if_pos hb]
      exact inv_step hinj ih (fun x => by rw [supRange, cnt]; omega)
    · have hb' : isBlank name = false := by simpa using hb
      rw [createConsumes, hb']
      simp only [Bool.false_eq_true, if_false]
      cases hp : path.getLast? with
      | none =>
        rw [createAlbum_items_root _ _ _ _ hb' hp]
        refine inv_step hinj ih (fun x => ?_)
        rw [allIds_append, cnt_append, cnt_allIds_cons, cnt_allIds_nil, cnt_allIdsA_mk,
          cnt_allIds_nil, supRange, supRange, cnt, cnt]
        simp only [List.map_nil, cnt]
        omega
      | some t =>
        rw [createAlbum_items_target _ _ _ _ t hb' hp]
        have hc1 : countId t l ≤ cnt t (allIds l) := countId_le_cnt t l
        have hle1 : cnt t (allIds l) ≤ 1 := (ih t).1
        rcases (by omega : countId t l = 0 ∨ countId t l = 1) with h0 | h1
        · rw [updateAt_zero t _ l h0]
          exact inv_step hinj ih (fun x => by rw [supRange, supRange, cnt, cnt]; omega)
        · have hfc : ∀ a : Album, (a.id == t) = true → ∀ x,
              cnt x (allIdsA (Album.mk a.id a.name a.images
                (a.subAlbums ++ [Album.mk (sup k) name [] []])))
                = cnt x (allIdsA a) + cnt x [sup k] := by
            intro a _ x
            rcases a with ⟨ai, an, aImgs, aSubs⟩
            simp only [Album.id, Album.name, Album.images, Album.subAlbums]
            rw [cnt_allIdsA_mk, cnt_allIdsA_mk, allIds_append, cnt_append, cnt_allIds_cons,
              cnt_allIds_nil, cnt_allIdsA_mk, cnt_allIds_nil, cnt, cnt]
            all_goals simp only [List.map_nil, cnt]
            all_goals omega
          have hcnt := updateAt_cnt t _ [sup k] hfc l h1
          refine inv_step hinj ih (fun x => ?_)
          rw [hcnt x, supRange, supRange, cnt, cnt]
  | @uploadStep path metas l k hR ih =>
    cases hp : path.getLast? with
    | none =>
      rw [handleFileUpload_path_none _ _ _ hp, uploadConsumes, hp]
      exact inv_step hinj ih (fun x => by rw [supRange, cnt]; omega)
    | some t =>
      cases metas with
      | nil =>
        rw [uploadConsumes, hp, mkImages]
        rw [handleFileUpload_imgs_empty path [] l t hp rfl]
        simp only [List.isEmpty_nil, if_true, if_pos rfl]
        exact inv_step hinj ih (fun x => by rw [supRange, cnt]; omega)
      | cons mm ms =>
        rw [uploadConsumes, hp, List.isEmpty_cons]
        simp only [Bool.false_eq_true, if_false]
        rw [handleFileUpload_target _ _ _ t hp (by rw [mkImages]; rfl)]
        have hc1 : countId t l ≤ cnt t (allIds l) := countId_le_cnt t l
        have hle1 : cnt t (allIds l) ≤ 1 := (ih t).1
        rcases (by omega : countId t l = 0 ∨ countId t l = 1) with h0 | h1
        · rw [updateAt_zero t _ l h0]
          exact inv_step hinj ih (fun x => by omega)
        · have hfu : ∀ a : Album, (a.id == t) = true → ∀ x,
              cnt x (allIdsA (Album.mk a.id a.name
                (a.images ++ mkImages sup k (mm :: ms)) a.subAlbums))
                = cnt x (allIdsA a) + cnt x ((mkImages sup k (mm :: ms)).map Image.id) := by
            intro a _ x
            rcases a with ⟨ai, an, aImgs, aSubs⟩
            simp only [Album.id, Album.name, Album.images, Album.subAlbums]
            rw [cnt_allIdsA_mk, cnt_allIdsA_mk, List.map_append, cnt_append]
            all_goals omega
          have hcnt := updateAt_cnt t _ _ hfu l h1
          refine inv_step hinj ih (fun x => ?_)
          rw [hcnt x, mkImages_map_id]
  | @dropStep path items l k hR ih =>
    rw [handleDrop]
    obtain ⟨m, hm, hcnt⟩ :=
      handleDropAux_cnt sup items l k (if path.isEmpty then none else dropWalk l [] none path)
    rw [hm]
    exact inv_step hinj ih hcnt
  | @deleteAlbumStep i l k hR ih =>
    intro x
    obtain ⟨h1, h2⟩ := ih x
    have hd := deleteRecursive_cnt i x l
    exact ⟨by omega, fun hpos => h2 (by omega)⟩
  | @deleteImageStep i l k hR ih =>
    intro x
    obtain ⟨h1, h2⟩ := ih x
    have hd := deleteFromRecursive_cnt i x l
    exact ⟨by omega, fun hpos => h2 (by omega)⟩

theorem supW_injective : Function.Injective supW := by
  intro a b h
  have := congrArg (fun s => s.data.length) h
  simpa [supW] using this

-- CLAIM C7 --

/-- C7 counterexample: the client-side identifiers come from
`Math.random().toString(36).substr(2, 9)` with no uniqueness check, so a
supply that repeats a value (possible for a random generator) yields a
reachable tree with two albums sharing the id "x": create album "A" at the
root, then create album "B" at the root, both ids drawn as "x". -/
theorem reachable_duplicate_ids :
    Reach supConst [Album.mk "x" "A" [] [], Album.mk "x" "B" [] []] 2
    ∧ ¬ (allIds [Album.mk "x" "A" [] [], Album.mk "x" "B" [] []]).Nodup := by
  constructor
  · have h0 : Reach supConst [] 0 := Reach.init
    have h2 := Reach.createStep "B" [] (Reach.createStep "A" [] h0)
    have e1 : (createAlbum (supConst 0) "A" [] []).items = [Album.mk "x" "A" [] []] := by
      rw [createAlbum_items_root (supConst 0) "A" [] [] (by decide) rfl]
      rfl
    have e2 : (createAlbum (supConst (0 + createConsumes "A")) "B" []
          [Album.mk "x" "A" [] []]).items
        = [Album.mk "x" "A" [] [], Album.mk "x" "B" [] []] := by
      rw [createAlbum_items_root (supConst (0 + createConsumes "A")) "B" []
        [Album.mk "x" "A" [] []] (by decide) rfl]
      rfl
    rw [e1, e2] at h2
    have ec : (0 + createConsumes "A") + createConsumes "B" = 2 := by decide
    rw [ec] at h2
    exact h2
  · have e : allIds [Album.mk "x" "A" [] [], Album.mk "x" "B" [] []] = ["x", "x"] := by
      rw [allIds, allIds, allIds, allIdsA, allIdsA]
      rfl
    rw [e]
    decide

/-- C7 as amended: provided the client-side id generator never returns the
same string twice (an injective supply — the structural guarantee the
design notes call for), every tree reachable from the empty forest by any
sequence of the operations (create album, upload images, folder drop,
delete album, delete image) has all album and image identifiers pairwise
distinct across the whole forest. -/
theorem reachable_ids_nodup (sup : Nat → String) (hinj : Function.Injective sup)
    (l : List Album) (k : Nat) (h : Reach sup l k) : (allIds l).Nodup :=
  nodup_of_cnt_le_one (fun x => (reach_inv hinj h x).1)

theorem reachable_ids_nodup_witness :
    (allIds (createAlbum (supW (0 + createConsumes "A")) "B" []
        (createAlbum (supW 0) "A" [] []).items).items).Nodup :=
  reachable_ids_nodup supW supW_injective _ _
    (Reach.createStep "B" [] (Reach.createStep "A" [] Reach.init))
